import Mathlib

/-!
Shallow embedding of the calendar service (src/calendar_service.cpp,
src/calendar_service.h, src/event.h).

The C++ store is `std::set<Event, EventComparator>`: we model it as the
set's in-order traversal, a `List Event` kept strictly sorted by the
comparator (start_utc, then id).  `time_t` values and event ids are
modelled as `Int`.  The mutex makes every public operation atomic, so a
concurrent execution is an interleaving of whole operations; operations
are therefore pure state transformers here.
-/

namespace Calendar

/-- `struct Event` from src/event.h. -/
structure Event where
  id : Int
  title : String
  start_utc : Int
  end_utc : Int
deriving DecidableEq, Repr

/-- `EventComparator::operator()` from src/event.h: order by `start_utc`
ascending, then by `id` as tie-breaker. -/
def eventLt (a b : Event) : Bool :=
  if a.start_utc ≠ b.start_utc then decide (a.start_utc < b.start_utc)
  else decide (a.id < b.id)

/-- `std::set` insertion on the sorted traversal: insert at the ordered
position; if an element with an equivalent key is already present the set
is unchanged. -/
def insertEvent (l : List Event) (ev : Event) : List Event :=
  match l with
  | [] => [ev]
  | x :: rest =>
    if eventLt ev x then ev :: x :: rest
    else if eventLt x ev then x :: insertEvent rest ev
    else x :: rest

/-- `CalendarService::findEventById` followed by `erase`: remove the first
element whose `id` matches, reporting whether a removal occurred
(src/calendar_service.cpp, deleteEvent / findEventById). -/
def eraseById (l : List Event) (event_id : Int) : List Event × Bool :=
  match l with
  | [] => ([], false)
  | x :: rest =>
    if x.id = event_id then (rest, true)
    else
      let r := eraseById rest event_id
      (x :: r.1, r.2)

/-- `CalendarService::hasConflict` (src/calendar_service.cpp lines 87-112):
build the dummy key `Event(0, "", start, end)`, take `lower_bound`
(on the sorted traversal: drop the prefix of elements `< key`), and test
the overlap predicate on the element at that position and on the element
immediately before it. -/
def hasConflict (l : List Event) (start_utc end_utc : Int) : Bool :=
  let search_event : Event := ⟨0, "", start_utc, end_utc⟩
  let after := l.dropWhile (fun ev => eventLt ev search_event)
  let before := l.takeWhile (fun ev => eventLt ev search_event)
  (match after.head? with
   | some ev => decide (start_utc < ev.end_utc) && decide (end_utc > ev.start_utc)
   | none => false) ||
  (match before.getLast? with
   | some ev => decide (start_utc < ev.end_utc) && decide (end_utc > ev.start_utc)
   | none => false)

/-- `CalendarService::getWeeklyEvents` (src/calendar_service.cpp lines
46-75): lower_bound at the dummy key `Event(0, "", week_start, week_start)`,
include the immediately preceding event when its end exceeds the week
start, then walk forward while `start_utc < week_end`. -/
def getWeeklyEvents (l : List Event) (week_start_utc week_end_utc : Int) : List Event :=
  let search_start : Event := ⟨0, "", week_start_utc, week_start_utc⟩
  let after := l.dropWhile (fun ev => eventLt ev search_start)
  let before := l.takeWhile (fun ev => eventLt ev search_start)
  let predPart : List Event :=
    match before.getLast? with
    | some ev => if ev.end_utc > week_start_utc then [ev] else []
    | none => []
  predPart ++ after.takeWhile (fun ev => decide (ev.start_utc < week_end_utc))

/-- The service state: the sorted event set and the id counter
(src/calendar_service.h: `events_`, `next_event_id_`). -/
structure CalendarService where
  events_ : List Event
  next_event_id_ : Int
deriving DecidableEq, Repr

/-- `CalendarService::CalendarService()`: empty store, counter 1. -/
def initService : CalendarService := ⟨[], 1⟩

/-- `CalendarService::getNextEventId`: post-increment, returns the old
counter value. -/
def getNextEventId (svc : CalendarService) : CalendarService × Int :=
  ({ svc with next_event_id_ := svc.next_event_id_ + 1 }, svc.next_event_id_)

/-- `CalendarService::createEvent`: reject invalid intervals, then (under
the lock) reject conflicts, else allocate an id and insert. Returns -1 on
failure, the new id on success. -/
def createEvent (svc : CalendarService) (title : String) (start_utc end_utc : Int) :
    CalendarService × Int :=
  if start_utc ≥ end_utc then (svc, -1)
  else if hasConflict svc.events_ start_utc end_utc then (svc, -1)
  else
    let r := getNextEventId svc
    let new_event : Event := ⟨r.2, title, start_utc, end_utc⟩
    ({ r.1 with events_ := insertEvent r.1.events_ new_event }, r.2)

/-- `CalendarService::deleteEvent`: erase the (first) event with the given
id, report whether one was found. -/
def deleteEvent (svc : CalendarService) (event_id : Int) : CalendarService × Bool :=
  let r := eraseById svc.events_ event_id
  ({ svc with events_ := r.1 }, r.2)

/-- `CalendarService::getAllEvents`: the in-order traversal of the store. -/
def getAllEvents (svc : CalendarService) : List Event := svc.events_

/-- One public mutating operation of the service. -/
inductive Op where
  | create (title : String) (start_utc end_utc : Int)
  | delete (event_id : Int)
deriving DecidableEq, Repr

/-- Apply one operation, keeping only the resulting state. -/
def applyOp (svc : CalendarService) : Op → CalendarService
  | Op.create t s e => (createEvent svc t s e).1
  | Op.delete i => (deleteEvent svc i).1

/-- Run a sequence of operations from the freshly constructed service. -/
def runOps (ops : List Op) : CalendarService := ops.foldl applyOp initService

/-- Two events' half-open intervals intersect. -/
def Overlap (a b : Event) : Prop :=
  a.start_utc < b.end_utc ∧ b.start_utc < a.end_utc

instance : DecidablePred fun p : Event × Event => Overlap p.1 p.2 := by
  unfold Overlap; infer_instance

instance (a b : Event) : Decidable (Overlap a b) := by
  unfold Overlap; infer_instance

/-- The store invariant: traversal strictly sorted by the comparator,
every interval valid, pairwise non-overlap, ids positive and pairwise
distinct. -/
def StoreInv (l : List Event) : Prop :=
  l.Pairwise (fun a b => eventLt a b = true) ∧
  (∀ ev ∈ l, ev.start_utc < ev.end_utc) ∧
  l.Pairwise (fun a b => ¬ Overlap a b) ∧
  (∀ ev ∈ l, 1 ≤ ev.id) ∧
  l.Pairwise (fun a b => a.id ≠ b.id)

/-- The whole-service invariant: store invariant, counter at least 1, and
every stored id below the counter (so freshly allocated ids are new). -/
def ServiceInv (svc : CalendarService) : Prop :=
  StoreInv svc.events_ ∧ 1 ≤ svc.next_event_id_ ∧
  ∀ ev ∈ svc.events_, ev.id < svc.next_event_id_

instance (l : List Event) : Decidable (StoreInv l) := by
  unfold StoreInv; infer_instance

instance (svc : CalendarService) : Decidable (ServiceInv svc) := by
  unfold ServiceInv; infer_instance

/-- The ids handed back by the successful `createEvent` calls of an
operation sequence, in order. -/
def createdIds (svc : CalendarService) : List Op → List Int
  | [] => []
  | Op.create t s e :: rest =>
    let r := createEvent svc t s e
    if r.2 = -1 then createdIds r.1 rest else r.2 :: createdIds r.1 rest
  | Op.delete i :: rest => createdIds (deleteEvent svc i).1 rest

/-- The `n` consecutive integers starting at `c`. -/
def consecFrom (c : Int) : Nat → List Int
  | 0 => []
  | n + 1 => c :: consecFrom (c + 1) n

/-- Forget the title of an event (the title-independent data
`(id, start_utc, end_utc)`). -/
def eraseTitle (ev : Event) : Event := ⟨ev.id, "", ev.start_utc, ev.end_utc⟩

/-- Forget all titles held in a service state. -/
def stripSvc (svc : CalendarService) : CalendarService :=
  ⟨svc.events_.map eraseTitle, svc.next_event_id_⟩

/-- Forget the title argument of an operation. -/
def opShape : Op → Op
  | Op.create _ s e => Op.create "" s e
  | Op.delete i => Op.delete i

/-- The externally observable result of each operation in a run: the id
(or -1) returned by `createEvent`, and 1/0 for `deleteEvent`'s boolean. -/
def runResults (svc : CalendarService) : List Op → List Int
  | [] => []
  | Op.create t s e :: rest =>
    let r := createEvent svc t s e
    r.2 :: runResults r.1 rest
  | Op.delete i :: rest =>
    let r := deleteEvent svc i
    (if r.2 then 1 else 0) :: runResults r.1 rest

/-! ### Basic facts about the comparator -/

theorem eventLt_irrefl (a : Event) : eventLt a a = false := by
  simp [eventLt]

theorem eventLt_trans {a b c : Event} (hab : eventLt a b = true)
    (hbc : eventLt b c = true) : eventLt a c = true := by
  simp only [eventLt] at *
  split at hab <;> split at hbc <;> split <;>
    simp_all <;> omega

theorem eventLt_start_le {a b : Event} (h : eventLt a b = true) :
    a.start_utc ≤ b.start_utc := by
  simp only [eventLt] at h
  split at h <;> simp_all <;> omega

theorem eventLt_connex {a b : Event} (hab : eventLt a b = false)
    (hba : eventLt b a = false) : a.start_utc = b.start_utc ∧ a.id = b.id := by
  simp only [eventLt] at hab hba
  split at hab <;> split at hba <;> simp_all <;> omega

/-- Comparison against the dummy search key `⟨0, t, s, x⟩`: for stored
events (positive id) it is exactly `start_utc < s`. -/
theorem eventLt_key {ev : Event} (hid : 1 ≤ ev.id) (t : String) (s x : Int) :
    eventLt ev ⟨0, t, s, x⟩ = decide (ev.start_utc < s) := by
  simp only [eventLt]
  split
  · rfl
  · simp_all; omega

/-! ### Sorted-list machinery for lower_bound via takeWhile / dropWhile -/

/-- In a sorted list, every element of `dropWhile p` fails a
downward-closed predicate `p`. -/
theorem sorted_dropWhile_not {l : List Event} {p : Event → Bool}
    (hs : l.Pairwise (fun a b => eventLt a b = true))
    (hdc : ∀ a b : Event, eventLt a b = true → p b = true → p a = true) :
    ∀ x ∈ l.dropWhile p, p x = false := by
  induction l with
  | nil => simp
  | cons a l ih =>
    rw [List.pairwise_cons] at hs
    intro x hx
    rw [List.dropWhile_cons] at hx
    by_cases hpa : p a = true
    · rw [if_pos hpa] at hx
      exact ih hs.2 x hx
    · rw [if_neg hpa] at hx
      rcases List.mem_cons.mp hx with rfl | hxl
      · exact Bool.not_eq_true _ ▸ hpa
      · by_cases hpx : p x = true
        · exact absurd (hdc a x (hs.1 x hxl) hpx) hpa
        · exact Bool.not_eq_true _ ▸ hpx

/-- In a sorted list, `takeWhile` of a downward-closed predicate is
`filter`. -/
theorem sorted_takeWhile_eq_filter {l : List Event} {p : Event → Bool}
    (hs : l.Pairwise (fun a b => eventLt a b = true))
    (hdc : ∀ a b : Event, eventLt a b = true → p b = true → p a = true) :
    l.takeWhile p = l.filter p := by
  induction l with
  | nil => rfl
  | cons a l ih =>
    rw [List.pairwise_cons] at hs
    by_cases hpa : p a = true
    · rw [List.takeWhile_cons_of_pos hpa, List.filter_cons_of_pos hpa,
        ih hs.2]
    · rw [List.takeWhile_cons_of_neg hpa, List.filter_cons_of_neg hpa]
      have : ∀ x ∈ l, ¬ p x = true := by
        intro x hxl hpx
        exact hpa (hdc a x (hs.1 x hxl) hpx)
      rw [List.filter_eq_nil_iff.mpr this]

/-! ### Facts about `insertEvent` -/

theorem insertEvent_mem_of_mem {l : List Event} {ev y : Event}
    (h : y ∈ l) : y ∈ insertEvent l ev := by
  induction l with
  | nil => cases h
  | cons x rest ih =>
    simp only [insertEvent]
    split
    · exact List.mem_cons_of_mem _ h
    · split
      · rcases List.mem_cons.mp h with rfl | h2
        · exact List.mem_cons_self _ _
        · exact List.mem_cons_of_mem _ (ih h2)
      · exact h

theorem mem_of_insertEvent_mem {l : List Event} {ev y : Event}
    (h : y ∈ insertEvent l ev) : y = ev ∨ y ∈ l := by
  induction l with
  | nil => simpa [insertEvent] using h
  | cons x rest ih =>
    simp only [insertEvent] at h
    split at h
    · rcases List.mem_cons.mp h with rfl | h2
      · exact Or.inl rfl
      · exact Or.inr h2
    · split at h
      · rcases List.mem_cons.mp h with rfl | h2
        · exact Or.inr (List.mem_cons_self _ _)
        · rcases ih h2 with h3 | h3
          · exact Or.inl h3
          · exact Or.inr (List.mem_cons_of_mem _ h3)
      · exact Or.inr h

/-- When no stored element shares the new element's id, the `std::set`
insert really adds it (no equivalent key is present). -/
theorem insertEvent_self_mem {l : List Event} {ev : Event}
    (hne : ∀ x ∈ l, x.id ≠ ev.id) : ev ∈ insertEvent l ev := by
  induction l with
  | nil => simp [insertEvent]
  | cons x rest ih =>
    simp only [insertEvent]
    split
    · exact List.mem_cons_self _ _
    · split
      · exact List.mem_cons_of_mem _
          (ih fun y hy => hne y (List.mem_cons_of_mem _ hy))
      · rename_i h1 h2
        have := eventLt_connex (Bool.not_eq_true _ ▸ h1) (Bool.not_eq_true _ ▸ h2)
        exact absurd this.2.symm (hne x (List.mem_cons_self _ _))

theorem insertEvent_mem_iff {l : List Event} {ev : Event}
    (hne : ∀ x ∈ l, x.id ≠ ev.id) (y : Event) :
    y ∈ insertEvent l ev ↔ y = ev ∨ y ∈ l := by
  constructor
  · exact mem_of_insertEvent_mem
  · rintro (rfl | h)
    · exact insertEvent_self_mem hne
    · exact insertEvent_mem_of_mem h

/-- Inserting preserves strict sortedness by the comparator. -/
theorem insertEvent_sorted {l : List Event} {ev : Event}
    (hs : l.Pairwise (fun a b => eventLt a b = true)) :
    (insertEvent l ev).Pairwise (fun a b => eventLt a b = true) := by
  induction l with
  | nil => simp [insertEvent]
  | cons x rest ih =>
    rw [List.pairwise_cons] at hs
    simp only [insertEvent]
    split
    · rename_i hlt
      rw [List.pairwise_cons]
      refine ⟨?_, List.pairwise_cons.mpr hs⟩
      intro y hy
      rcases List.mem_cons.mp hy with rfl | h2
      · exact hlt
      · exact eventLt_trans hlt (hs.1 y h2)
    · split
      · rename_i hxe
        rw [List.pairwise_cons]
        refine ⟨?_, ih hs.2⟩
        intro y hy
        rcases mem_of_insertEvent_mem hy with rfl | h2
        · exact hxe
        · exact hs.1 y h2
      · exact List.pairwise_cons.mpr hs

/-- Inserting preserves any pairwise relation that the new element bears
to every old element in both directions. -/
theorem insertEvent_pairwise {l : List Event} {ev : Event}
    {R : Event → Event → Prop}
    (hR1 : ∀ x ∈ l, R ev x) (hR2 : ∀ x ∈ l, R x ev)
    (hp : l.Pairwise R) : (insertEvent l ev).Pairwise R := by
  induction l with
  | nil => simp [insertEvent, hp]
  | cons x rest ih =>
    rw [List.pairwise_cons] at hp
    simp only [insertEvent]
    split
    · rw [List.pairwise_cons]
      exact ⟨hR1, List.pairwise_cons.mpr hp⟩
    · split
      · rw [List.pairwise_cons]
        refine ⟨?_, ih (fun y hy => hR1 y (List.mem_cons_of_mem _ hy))
          (fun y hy => hR2 y (List.mem_cons_of_mem _ hy)) hp.2⟩
        intro y hy
        rcases mem_of_insertEvent_mem hy with rfl | h2
        · exact hR2 x (List.mem_cons_self _ _)
        · exact hp.1 y h2
      · exact List.pairwise_cons.mpr hp

/-! ### Facts about `eraseById` -/

theorem eraseById_sublist (l : List Event) (i : Int) :
    (eraseById l i).1.Sublist l := by
  induction l with
  | nil => simp [eraseById]
  | cons x rest ih =>
    simp only [eraseById]
    split
    · exact List.sublist_cons_self _ _
    · exact List.Sublist.cons₂ _ ih

/-- With pairwise-distinct ids, removing the first id match is filtering
the id out, and the returned flag is exactly "some element matches". -/
theorem eraseById_eq {l : List Event} (i : Int)
    (hids : l.Pairwise (fun a b => a.id ≠ b.id)) :
    eraseById l i =
      (l.filter (fun ev => decide (ev.id ≠ i)),
       l.any (fun ev => decide (ev.id = i))) := by
  induction l with
  | nil => rfl
  | cons x rest ih =>
    rw [List.pairwise_cons] at hids
    simp only [eraseById]
    split
    · rename_i hx
      have hrest : rest.filter (fun ev => decide (ev.id ≠ i)) = rest := by
        rw [List.filter_eq_self]
        intro a ha
        simp only [decide_eq_true_eq]
        intro hai
        exact hids.1 a ha (hx.trans hai.symm)
      have hfilter : (x :: rest).filter (fun ev => decide (ev.id ≠ i)) = rest := by
        rw [List.filter_cons_of_neg (by simp [hx])]
        exact hrest
      have hany : ((x :: rest).any fun ev => decide (ev.id = i)) = true := by
        simp [hx]
      rw [hfilter, hany]
    · rename_i hx
      rw [ih hids.2]
      simp [hx]

/-! ### Locating the lower_bound position of a search key -/

/-- Everything before the lower_bound position of the key `(s, id 0)`
starts strictly before `s` (stored ids are positive, the key id is 0). -/
theorem takeWhile_key_start_lt {l : List Event} (hpos : ∀ ev ∈ l, 1 ≤ ev.id)
    {s : Int} {t : String} {x : Int} :
    ∀ y ∈ l.takeWhile (fun ev => eventLt ev ⟨0, t, s, x⟩), y.start_utc < s := by
  intro y hy
  have hyl : y ∈ l := (List.takeWhile_sublist _).subset hy
  have hqy := List.mem_takeWhile_imp hy
  simp only [eventLt_key (hpos y hyl), decide_eq_true_eq] at hqy
  exact hqy

/-- Everything at or after the lower_bound position of the key `(s, id 0)`
starts at or after `s`. -/
theorem dropWhile_key_start_ge {l : List Event}
    (hsort : l.Pairwise (fun a b => eventLt a b = true))
    (hpos : ∀ ev ∈ l, 1 ≤ ev.id) {s : Int} {t : String} {x : Int} :
    ∀ y ∈ l.dropWhile (fun ev => eventLt ev ⟨0, t, s, x⟩), s ≤ y.start_utc := by
  intro y hy
  have hyl : y ∈ l := (List.dropWhile_sublist _).subset hy
  have hqy := sorted_dropWhile_not hsort
    (fun a b hab hb => eventLt_trans hab hb) y hy
  simp only [eventLt_key (hpos y hyl), decide_eq_false_iff_not] at hqy
  omega

/-- Under the store invariant, an element strictly before the last
element of the `takeWhile` prefix at key `(s, _)` cannot reach past `s`:
its interval ends no later than the last prefix element starts. -/
theorem before_overlap_eq_last {l : List Event} (hinv : StoreInv l)
    {s : Int} {t : String} {x : Int} {b : List Event} {p ev : Event}
    (hB : l.takeWhile (fun y => eventLt y ⟨0, t, s, x⟩) = b ++ [p])
    (hev : ev ∈ b) (hov1 : s < ev.end_utc) : False := by
  obtain ⟨hsort, hvalid, hnov, hpos, hids⟩ := hinv
  have hpmem : p ∈ l.takeWhile (fun y => eventLt y ⟨0, t, s, x⟩) := by
    rw [hB]; exact List.mem_append_right _ (List.mem_cons_self _ _)
  have hevmem : ev ∈ l.takeWhile (fun y => eventLt y ⟨0, t, s, x⟩) := by
    rw [hB]; exact List.mem_append_left _ hev
  have hpl : p ∈ l := (List.takeWhile_sublist _).subset hpmem
  have hps : p.start_utc < s := takeWhile_key_start_lt hpos p hpmem
  have hsortB := List.Pairwise.sublist
    (List.takeWhile_sublist (fun y => eventLt y ⟨0, t, s, x⟩)) hsort
  have hnovB := List.Pairwise.sublist
    (List.takeWhile_sublist (fun y => eventLt y ⟨0, t, s, x⟩)) hnov
  rw [hB, List.pairwise_append] at hsortB hnovB
  have hlt : eventLt ev p = true := hsortB.2.2 ev hev p (List.mem_cons_self _ _)
  have hno : ¬ Overlap ev p := hnovB.2.2 ev hev p (List.mem_cons_self _ _)
  have hle : ev.start_utc ≤ p.start_utc := eventLt_start_le hlt
  have hvp : p.start_utc < p.end_utc := hvalid p hpl
  simp only [Overlap, not_and] at hno
  omega

/-- Under the store invariant, if any event at or after the lower_bound
position overlaps the candidate on the right (`ev.start_utc < e`), then
the overlap test fires already on the first such event. -/
theorem after_head_conflict {l : List Event} (hinv : StoreInv l)
    {s e : Int} {t : String} {x : Int} {hd : Event} {tl : List Event}
    (hA : l.dropWhile (fun y => eventLt y ⟨0, t, s, x⟩) = hd :: tl)
    {ev : Event} (hev : ev ∈ hd :: tl) (hov2 : ev.start_utc < e) :
    s < hd.end_utc ∧ hd.start_utc < e := by
  obtain ⟨hsort, hvalid, hnov, hpos, hids⟩ := hinv
  have hhdmem : hd ∈ l.dropWhile (fun y => eventLt y ⟨0, t, s, x⟩) := by
    rw [hA]; exact List.mem_cons_self _ _
  have hhdl : hd ∈ l := (List.dropWhile_sublist _).subset hhdmem
  have hge : s ≤ hd.start_utc := dropWhile_key_start_ge hsort hpos hd hhdmem
  have hvhd : hd.start_utc < hd.end_utc := hvalid hd hhdl
  have hsortA := List.Pairwise.sublist
    (List.dropWhile_sublist (fun y => eventLt y ⟨0, t, s, x⟩)) hsort
  rw [hA, List.pairwise_cons] at hsortA
  rcases List.mem_cons.mp hev with rfl | hevtl
  · exact ⟨by omega, hov2⟩
  · have hlt : eventLt hd ev = true := hsortA.1 ev hevtl
    have := eventLt_start_le hlt
    exact ⟨by omega, by omega⟩

/-- The conflict detector is complete and sound on invariant-satisfying
stores: examining only the two neighbors of the insertion point detects
exactly the candidates that overlap some stored event. -/
theorem hasConflict_iff {l : List Event} (hinv : StoreInv l) {s e : Int}
    (hse : s < e) :
    hasConflict l s e = true ↔ ∃ ev ∈ l, s < ev.end_utc ∧ ev.start_utc < e := by
  have hsplit := List.takeWhile_append_dropWhile
    (fun y => eventLt y (⟨0, "", s, e⟩ : Event)) l
  rcases hA : l.dropWhile (fun y => eventLt y (⟨0, "", s, e⟩ : Event)) with _ | ⟨hd, tl⟩ <;>
    rcases hB : l.takeWhile (fun y => eventLt y (⟨0, "", s, e⟩ : Event)) with
      _ | ⟨b0, brest⟩
  · -- store empty
    rw [hA, hB] at hsplit
    simp only [hasConflict, hA, hB, List.head?_nil, List.getLast?_nil]
    simp [← hsplit]
  · -- everything before the key: only the predecessor check is live
    obtain ⟨b, p, hcat⟩ :
        ∃ L bb, b0 :: brest = L ++ [bb] := by
      rcases List.eq_nil_or_concat (b0 :: brest) with h | ⟨L, bb, h⟩
      · cases h
      · exact ⟨L, bb, by simpa using h⟩
    rw [hB, hcat, hA] at hsplit
    rw [hcat] at hB
    simp only [hasConflict, hA, hB, List.head?_nil, List.getLast?_concat,
      Bool.false_or, Bool.and_eq_true, decide_eq_true_eq, gt_iff_lt]
    constructor
    · rintro ⟨h1, h2⟩
      refine ⟨p, ?_, h1, h2⟩
      rw [← hsplit]
      simp
    · rintro ⟨ev, hev, hov1, hov2⟩
      rw [← hsplit, List.append_nil] at hev
      rcases List.mem_append.mp hev with hev | hev
      · exact absurd hov1 (fun h => before_overlap_eq_last hinv hB hev h)
      · rcases List.mem_singleton.mp hev with rfl
        exact ⟨hov1, hov2⟩
  · -- everything at/after the key: only the successor check is live
    rw [hA, hB] at hsplit
    simp only [hasConflict, hA, hB, List.head?_cons, List.getLast?_nil,
      Bool.or_false, Bool.and_eq_true, decide_eq_true_eq, gt_iff_lt]
    constructor
    · rintro ⟨h1, h2⟩
      refine ⟨hd, ?_, h1, h2⟩
      rw [← hsplit]
      exact List.mem_cons_self _ _
    · rintro ⟨ev, hev, hov1, hov2⟩
      rw [← hsplit, List.nil_append] at hev
      exact after_head_conflict hinv hA hev hov2
  · -- both neighbor checks live
    obtain ⟨b, p, hcat⟩ :
        ∃ L bb, b0 :: brest = L ++ [bb] := by
      rcases List.eq_nil_or_concat (b0 :: brest) with h | ⟨L, bb, h⟩
      · cases h
      · exact ⟨L, bb, by simpa using h⟩
    rw [hB, hcat, hA] at hsplit
    rw [hcat] at hB
    simp only [hasConflict, hA, hB, List.head?_cons, List.getLast?_concat,
      Bool.or_eq_true, Bool.and_eq_true, decide_eq_true_eq, gt_iff_lt]
    constructor
    · rintro (⟨h1, h2⟩ | ⟨h1, h2⟩)
      · refine ⟨hd, ?_, h1, h2⟩
        rw [← hsplit]
        exact List.mem_append_right _ (List.mem_cons_self _ _)
      · refine ⟨p, ?_, h1, h2⟩
        rw [← hsplit]
        exact List.mem_append_left _ (List.mem_append_right _ (List.mem_cons_self _ _))
    · rintro ⟨ev, hev, hov1, hov2⟩
      rw [← hsplit] at hev
      rcases List.mem_append.mp hev with hev | hev
      · rcases List.mem_append.mp hev with hev | hev
        · exact absurd hov1 (fun h => before_overlap_eq_last hinv hB hev h)
        · rcases List.mem_singleton.mp hev with rfl
          exact Or.inr ⟨hov1, hov2⟩
      · exact Or.inl (after_head_conflict hinv hA hev hov2)

/-! ### Operations preserve the service invariant -/

theorem createEvent_preserves {svc : CalendarService} (hinv : ServiceInv svc)
    (t : String) (s e : Int) : ServiceInv (createEvent svc t s e).1 := by
  obtain ⟨hstore, hc1, hlt⟩ := hinv
  by_cases h1 : s ≥ e
  · simpa [createEvent, h1] using ⟨hstore, hc1, hlt⟩
  by_cases h2 : hasConflict svc.events_ s e = true
  · simpa [createEvent, h1, h2] using ⟨hstore, hc1, hlt⟩
  have hse : s < e := by omega
  have hnewov : ∀ x ∈ svc.events_, ¬ (s < x.end_utc ∧ x.start_utc < e) := by
    intro x hx hov
    exact h2 ((hasConflict_iff hstore hse).mpr ⟨x, hx, hov⟩)
  obtain ⟨hsort, hvalid, hnov, hpos, hids⟩ := hstore
  have hstate : (createEvent svc t s e).1 =
      ⟨insertEvent svc.events_ ⟨svc.next_event_id_, t, s, e⟩,
        svc.next_event_id_ + 1⟩ := by
    simp [createEvent, h1, h2, getNextEventId]
  rw [hstate]
  refine ⟨⟨insertEvent_sorted hsort, ?_, ?_, ?_, ?_⟩,
    by show (1:Int) ≤ svc.next_event_id_ + 1; omega, ?_⟩
  · intro y hy
    rcases mem_of_insertEvent_mem hy with rfl | hyl
    · exact hse
    · exact hvalid y hyl
  · refine insertEvent_pairwise ?_ ?_ hnov
    · intro x hx hov
      exact hnewov x hx hov
    · intro x hx hov
      exact hnewov x hx ⟨hov.2, hov.1⟩
  · intro y hy
    rcases mem_of_insertEvent_mem hy with rfl | hyl
    · exact hc1
    · exact hpos y hyl
  · refine insertEvent_pairwise ?_ ?_ hids
    · intro x hx h
      exact absurd h.symm (Int.ne_of_lt (hlt x hx))
    · intro x hx h
      exact absurd h (Int.ne_of_lt (hlt x hx))
  · intro y hy
    rcases mem_of_insertEvent_mem hy with rfl | hyl
    · show svc.next_event_id_ < svc.next_event_id_ + 1
      omega
    · show y.id < svc.next_event_id_ + 1
      have := hlt y hyl
      omega

theorem deleteEvent_preserves {svc : CalendarService} (hinv : ServiceInv svc)
    (i : Int) : ServiceInv (deleteEvent svc i).1 := by
  obtain ⟨⟨hsort, hvalid, hnov, hpos, hids⟩, hc1, hlt⟩ := hinv
  have hsub : (eraseById svc.events_ i).1.Sublist svc.events_ :=
    eraseById_sublist svc.events_ i
  exact ⟨⟨List.Pairwise.sublist hsub hsort,
      fun y hy => hvalid y (hsub.subset hy),
      List.Pairwise.sublist hsub hnov,
      fun y hy => hpos y (hsub.subset hy),
      List.Pairwise.sublist hsub hids⟩,
    hc1, fun y hy => hlt y (hsub.subset hy)⟩

theorem foldl_preserves {svc : CalendarService} (hinv : ServiceInv svc)
    (ops : List Op) : ServiceInv (ops.foldl applyOp svc) := by
  induction ops generalizing svc with
  | nil => exact hinv
  | cons op rest ih =>
    rw [List.foldl_cons]
    cases op with
    | create t s e => exact ih (createEvent_preserves hinv t s e)
    | delete i => exact ih (deleteEvent_preserves hinv i)

theorem runOps_inv (ops : List Op) : ServiceInv (runOps ops) :=
  foldl_preserves (by decide) ops

/-! ### Claim theorems -/

/-- C1: on a store satisfying the invariant, for a candidate `[s, e)` with
`s < e`, `hasConflict` — which examines only the first stored event with
start ≥ s and the one immediately preceding it — returns true iff some
stored event overlaps the candidate (`s < E.end ∧ e > E.start`); a
candidate that only touches stored events at boundaries is not a
conflict. -/
theorem C1_hasConflict_correct {l : List Event} (hinv : StoreInv l)
    {s e : Int} (hse : s < e) :
    (hasConflict l s e = true ↔
      ∃ ev ∈ l, s < ev.end_utc ∧ e > ev.start_utc) ∧
    ((∀ ev ∈ l, s ≥ ev.end_utc ∨ e ≤ ev.start_utc) →
      hasConflict l s e = false) := by
  have hmain := hasConflict_iff hinv hse
  refine ⟨hmain, ?_⟩
  intro htouch
  rw [Bool.eq_false_iff]
  intro htrue
  obtain ⟨ev, hev, hov1, hov2⟩ := hmain.mp htrue
  rcases htouch ev hev with h | h
  · omega
  · omega

/-- Witness for C1: store `{[0,10), [10,20)}` (touching at 10); the
candidate `[20, 30)` touches `[10,20)` at the boundary and is reported
conflict-free, and the iff holds. -/
theorem C1_hasConflict_correct_witness :
    (hasConflict [⟨1, "A", 0, 10⟩, ⟨2, "B", 10, 20⟩] 20 30 = true ↔
      ∃ ev ∈ [(⟨1, "A", 0, 10⟩ : Event), ⟨2, "B", 10, 20⟩],
        (20:Int) < ev.end_utc ∧ (30:Int) > ev.start_utc) ∧
    ((∀ ev ∈ [(⟨1, "A", 0, 10⟩ : Event), ⟨2, "B", 10, 20⟩],
        (20:Int) ≥ ev.end_utc ∨ (30:Int) ≤ ev.start_utc) →
      hasConflict [⟨1, "A", 0, 10⟩, ⟨2, "B", 10, 20⟩] 20 30 = false) :=
  C1_hasConflict_correct (by decide) (by decide)

/-- C2: in every state reachable from the empty store by `createEvent`
and `deleteEvent` operations, distinct stored events never overlap and
every stored event has a valid interval. -/
theorem C2_invariant_reachable (ops : List Op) :
    (∀ a ∈ (runOps ops).events_, ∀ b ∈ (runOps ops).events_, a ≠ b →
      ¬ (a.start_utc < b.end_utc ∧ b.start_utc < a.end_utc)) ∧
    (∀ ev ∈ (runOps ops).events_, ev.start_utc < ev.end_utc) := by
  obtain ⟨⟨_, hvalid, hnov, _, _⟩, _, _⟩ := runOps_inv ops
  refine ⟨?_, hvalid⟩
  intro a ha b hb hne
  have hsym : Symmetric (fun a b : Event => ¬ Overlap a b) := by
    intro x y hxy hyx
    exact hxy ⟨hyx.2, hyx.1⟩
  exact List.Pairwise.forall hsym hnov ha hb hne

/-- Witness for C2: after creating `[0,1)` and `[5,9)`, the two stored
events do not overlap. -/
theorem C2_invariant_reachable_witness :
    (⟨1, "a", 0, 1⟩ : Event) ∈
      (runOps [Op.create "a" 0 1, Op.create "b" 5 9]).events_ ∧
    (⟨2, "b", 5, 9⟩ : Event) ∈
      (runOps [Op.create "a" 0 1, Op.create "b" 5 9]).events_ ∧
    (⟨1, "a", 0, 1⟩ : Event) ≠ ⟨2, "b", 5, 9⟩ ∧
    ¬ ((0:Int) < 9 ∧ (5:Int) < 1) :=
  ⟨by decide, by decide, by decide,
    (C2_invariant_reachable [Op.create "a" 0 1, Op.create "b" 5 9]).1
      ⟨1, "a", 0, 1⟩ (by decide) ⟨2, "b", 5, 9⟩ (by decide) (by decide)⟩

/-- C5: `createEvent` fails iff `start >= end` or the candidate overlaps a
stored event; a failing call leaves the service untouched; a successful
call returns the allocated id and the store afterwards is the prior store
plus exactly the one new event. -/
theorem C5_createEvent_result {svc : CalendarService} (hinv : ServiceInv svc)
    (t : String) (s e : Int) :
    ((createEvent svc t s e).2 = -1 ↔
      s ≥ e ∨ ∃ ev ∈ svc.events_, s < ev.end_utc ∧ e > ev.start_utc) ∧
    ((createEvent svc t s e).2 = -1 → (createEvent svc t s e).1 = svc) ∧
    ((createEvent svc t s e).2 ≠ -1 →
      (createEvent svc t s e).2 = svc.next_event_id_ ∧
      ∀ ev, ev ∈ (createEvent svc t s e).1.events_ ↔
        (ev = ⟨svc.next_event_id_, t, s, e⟩ ∨ ev ∈ svc.events_)) := by
  obtain ⟨hstore, hc1, hlt⟩ := hinv
  by_cases h1 : s ≥ e
  · refine ⟨?_, ?_, ?_⟩
    · exact iff_of_true (by simp [createEvent, h1]) (Or.inl h1)
    · intro _
      simp [createEvent, h1]
    · intro h
      exact absurd (by simp [createEvent, h1]) h
  by_cases h2 : hasConflict svc.events_ s e = true
  · have hex := (hasConflict_iff hstore (by omega)).mp h2
    refine ⟨?_, ?_, ?_⟩
    · exact iff_of_true (by simp [createEvent, h1, h2])
        (Or.inr (by simpa [gt_iff_lt] using hex))
    · intro _
      simp [createEvent, h1, h2]
    · intro h
      exact absurd (by simp [createEvent, h1, h2]) h
  · have hnoex : ¬ ∃ ev ∈ svc.events_, s < ev.end_utc ∧ e > ev.start_utc := by
      intro hex
      exact h2 ((hasConflict_iff hstore (by omega)).mpr
        (by simpa [gt_iff_lt] using hex))
    have hres : (createEvent svc t s e).2 = svc.next_event_id_ := by
      simp [createEvent, h1, h2, getNextEventId]
    have hstate : (createEvent svc t s e).1 =
        ⟨insertEvent svc.events_ ⟨svc.next_event_id_, t, s, e⟩,
          svc.next_event_id_ + 1⟩ := by
      simp [createEvent, h1, h2, getNextEventId]
    refine ⟨?_, ?_, ?_⟩
    · rw [hres]
      exact iff_of_false (by omega)
        (fun hor => hor.elim (fun h => h1 h) (fun hex => hnoex hex))
    · intro h
      rw [hres] at h
      omega
    · intro _
      refine ⟨hres, ?_⟩
      intro ev
      rw [hstate]
      exact insertEvent_mem_iff (fun x hx => Int.ne_of_lt (hlt x hx)) ev

/-- Witness for C5: creating `[0, 1)` on the fresh service. -/
theorem C5_createEvent_result_witness :
    ((createEvent initService "a" 0 1).2 = -1 ↔
      (0:Int) ≥ 1 ∨ ∃ ev ∈ initService.events_,
        (0:Int) < ev.end_utc ∧ (1:Int) > ev.start_utc) ∧
    ((createEvent initService "a" 0 1).2 = -1 →
      (createEvent initService "a" 0 1).1 = initService) ∧
    ((createEvent initService "a" 0 1).2 ≠ -1 →
      (createEvent initService "a" 0 1).2 = initService.next_event_id_ ∧
      ∀ ev, ev ∈ (createEvent initService "a" 0 1).1.events_ ↔
        (ev = ⟨initService.next_event_id_, "a", 0, 1⟩ ∨
          ev ∈ initService.events_)) :=
  C5_createEvent_result (by decide) "a" 0 1

/-- C6: when some stored event has the requested id, `deleteEvent` returns
true and removes exactly the events with that id (one, by uniqueness),
keeping all others in place; when no stored event has it, it returns
false and leaves the service unchanged. -/
theorem C6_deleteEvent_correct {svc : CalendarService}
    (hids : svc.events_.Pairwise (fun a b => a.id ≠ b.id)) (i : Int) :
    ((∃ ev ∈ svc.events_, ev.id = i) →
      (deleteEvent svc i).2 = true ∧
      (deleteEvent svc i).1.events_ =
        svc.events_.filter (fun ev => decide (ev.id ≠ i))) ∧
    ((∀ ev ∈ svc.events_, ev.id ≠ i) →
      (deleteEvent svc i).2 = false ∧ (deleteEvent svc i).1 = svc) := by
  have h := eraseById_eq i hids
  constructor
  · rintro ⟨ev, hev, hevid⟩
    constructor
    · show (eraseById svc.events_ i).2 = true
      rw [h]
      simp only [List.any_eq_true, decide_eq_true_eq]
      exact ⟨ev, hev, hevid⟩
    · show (eraseById svc.events_ i).1 = _
      rw [h]
  · intro hall
    have hfilter : svc.events_.filter (fun ev => decide (ev.id ≠ i)) =
        svc.events_ :=
      List.filter_eq_self.mpr (fun a ha => by simpa using hall a ha)
    have hany : (svc.events_.any fun ev => decide (ev.id = i)) = false := by
      simp only [List.any_eq_false, decide_eq_true_eq]
      exact hall
    constructor
    · show (eraseById svc.events_ i).2 = false
      rw [h, hany]
    · show ({ svc with events_ := (eraseById svc.events_ i).1 } :
          CalendarService) = svc
      rw [h, hfilter]

/-- Witness for C6: a one-event store, deleting the present id 1 and
(after instantiating the second conjunct elsewhere) observing the exact
removal. -/
theorem C6_deleteEvent_correct_witness :
    ((∃ ev ∈ (⟨[⟨1, "a", 0, 5⟩], 2⟩ : CalendarService).events_, ev.id = 1) →
      (deleteEvent ⟨[⟨1, "a", 0, 5⟩], 2⟩ 1).2 = true ∧
      (deleteEvent ⟨[⟨1, "a", 0, 5⟩], 2⟩ 1).1.events_ =
        (⟨[⟨1, "a", 0, 5⟩], 2⟩ : CalendarService).events_.filter
          (fun ev => decide (ev.id ≠ 1))) ∧
    ((∀ ev ∈ (⟨[⟨1, "a", 0, 5⟩], 2⟩ : CalendarService).events_, ev.id ≠ 1) →
      (deleteEvent ⟨[⟨1, "a", 0, 5⟩], 2⟩ 1).2 = false ∧
      (deleteEvent ⟨[⟨1, "a", 0, 5⟩], 2⟩ 1).1 = ⟨[⟨1, "a", 0, 5⟩], 2⟩) :=
  C6_deleteEvent_correct (by decide) 1

/-- A create whose conflict check fires returns -1. -/
theorem createEvent_conflict_fails {svc : CalendarService} {t : String}
    {s e : Int} (hv : ¬ s ≥ e) (hc : hasConflict svc.events_ s e = true) :
    (createEvent svc t s e).2 = -1 := by
  simp [createEvent, hv, hc]

/-- After a successful create of `[s1, e1)`, a second create with an
interval overlapping it fails. -/
theorem second_create_fails {svc : CalendarService} (hinv : ServiceInv svc)
    {t1 t2 : String} {s1 e1 s2 e2 : Int}
    (h1 : (createEvent svc t1 s1 e1).2 ≠ -1)
    (h2 : (createEvent svc t2 s2 e2).2 ≠ -1)
    (hov1 : s1 < e2) (hov2 : s2 < e1) :
    (createEvent (createEvent svc t1 s1 e1).1 t2 s2 e2).2 = -1 := by
  obtain ⟨hstore, hc1, hlt⟩ := hinv
  by_cases hv1 : s1 ≥ e1
  · exact absurd (by simp [createEvent, hv1]) h1
  by_cases hcf1 : hasConflict svc.events_ s1 e1 = true
  · exact absurd (by simp [createEvent, hv1, hcf1]) h1
  by_cases hv2 : s2 ≥ e2
  · exact absurd (by simp [createEvent, hv2]) h2
  have hstate : (createEvent svc t1 s1 e1).1 =
      ⟨insertEvent svc.events_ ⟨svc.next_event_id_, t1, s1, e1⟩,
        svc.next_event_id_ + 1⟩ := by
    simp [createEvent, hv1, hcf1, getNextEventId]
  have hinv2 : ServiceInv (createEvent svc t1 s1 e1).1 :=
    createEvent_preserves ⟨hstore, hc1, hlt⟩ t1 s1 e1
  have hmem : (⟨svc.next_event_id_, t1, s1, e1⟩ : Event) ∈
      (createEvent svc t1 s1 e1).1.events_ := by
    rw [hstate]
    exact insertEvent_self_mem (fun x hx => Int.ne_of_lt (hlt x hx))
  have hconf : hasConflict (createEvent svc t1 s1 e1).1.events_ s2 e2 = true :=
    (hasConflict_iff hinv2.1 (by omega)).mpr ⟨_, hmem, hov2, hov1⟩
  exact createEvent_conflict_fails hv2 hconf

/-- C3: two racing creates with overlapping intervals, each of which
would succeed alone, serialize under the lock: in either serialization
order the first succeeds and the second fails with a conflict — exactly
one success. -/
theorem C3_concurrent_race {svc : CalendarService} (hinv : ServiceInv svc)
    (t1 t2 : String) (s1 e1 s2 e2 : Int)
    (h1 : (createEvent svc t1 s1 e1).2 ≠ -1)
    (h2 : (createEvent svc t2 s2 e2).2 ≠ -1)
    (hov1 : s1 < e2) (hov2 : s2 < e1) :
    ((createEvent svc t1 s1 e1).2 ≠ -1 ∧
     (createEvent (createEvent svc t1 s1 e1).1 t2 s2 e2).2 = -1) ∧
    ((createEvent svc t2 s2 e2).2 ≠ -1 ∧
     (createEvent (createEvent svc t2 s2 e2).1 t1 s1 e1).2 = -1) :=
  ⟨⟨h1, second_create_fails hinv h1 h2 hov1 hov2⟩,
   ⟨h2, second_create_fails hinv h2 h1 hov2 hov1⟩⟩

/-- Witness for C3: racing `[0, 10)` and `[5, 15)` on the fresh service. -/
theorem C3_concurrent_race_witness :
    (((createEvent initService "A" 0 10).2 ≠ -1 ∧
      (createEvent (createEvent initService "A" 0 10).1 "B" 5 15).2 = -1) ∧
     ((createEvent initService "B" 5 15).2 ≠ -1 ∧
      (createEvent (createEvent initService "B" 5 15).1 "A" 0 10).2 = -1)) :=
  C3_concurrent_race (by decide) "A" "B" 0 10 5 15 (by decide) (by decide)
    (by decide) (by decide)

/-- Counterexample to C4 as stated: with the invariant-satisfying store
`{[7, 12)}` and the reversed bounds `rangeStart = 10 > rangeEnd = 5`,
`getWeeklyEvents` returns the stored event even though it fails the
claimed filter `E.start < rangeEnd` (7 < 5 is false). -/
theorem C4_counterexample :
    StoreInv [⟨1, "x", 7, 12⟩] ∧
    ∃ ev ∈ getWeeklyEvents [⟨1, "x", 7, 12⟩] 10 5,
      ¬ (ev.start_utc < 5 ∧ ev.end_utc > 10) := by
  refine ⟨by decide, ⟨1, "x", 7, 12⟩, ?_, by decide⟩
  decide

/-- C4 (amended with `rangeStart ≤ rangeEnd`): on an invariant-satisfying
store, `getWeeklyEvents` returns exactly the stored events with
`E.start < rangeEnd ∧ E.end > rangeStart`, in ascending store order — in
particular it includes an event starting before `rangeStart` whose end
exceeds `rangeStart`. -/
theorem C4_getWeeklyEvents_correct {l : List Event} (hinv : StoreInv l)
    {ws we : Int} (hr : ws ≤ we) :
    getWeeklyEvents l ws we =
      l.filter (fun ev =>
        decide (ev.start_utc < we) && decide (ev.end_utc > ws)) ∧
    (getWeeklyEvents l ws we).Pairwise (fun a b => eventLt a b = true) := by
  obtain ⟨hsort, hvalid, hnov, hpos, hids⟩ := id hinv
  have hsplit := List.takeWhile_append_dropWhile
    (fun y => eventLt y (⟨0, "", ws, ws⟩ : Event)) l
  have hsortA := List.Pairwise.sublist
    (List.dropWhile_sublist (fun y => eventLt y (⟨0, "", ws, ws⟩ : Event)))
    hsort
  have hmain : getWeeklyEvents l ws we =
      l.filter (fun ev =>
        decide (ev.start_utc < we) && decide (ev.end_utc > ws)) := by
    have hafter : (l.dropWhile
          (fun y => eventLt y (⟨0, "", ws, ws⟩ : Event))).filter
          (fun ev => decide (ev.start_utc < we) && decide (ev.end_utc > ws)) =
        (l.dropWhile (fun y => eventLt y (⟨0, "", ws, ws⟩ : Event))).takeWhile
          (fun ev => decide (ev.start_utc < we)) := by
      have hcongr : ∀ x ∈ l.dropWhile
            (fun y => eventLt y (⟨0, "", ws, ws⟩ : Event)),
          (decide (x.start_utc < we) && decide (x.end_utc > ws)) =
            decide (x.start_utc < we) := by
        intro x hx
        have h1 : ws ≤ x.start_utc := dropWhile_key_start_ge hsort hpos x hx
        have h2 : x.start_utc < x.end_utc :=
          hvalid x ((List.dropWhile_sublist _).subset hx)
        have h3 : decide (x.end_utc > ws) = true := by
          simp only [gt_iff_lt, decide_eq_true_eq]
          omega
        rw [h3, Bool.and_true]
      rw [List.filter_congr hcongr,
        ← sorted_takeWhile_eq_filter hsortA ?_]
      intro a b hab hb
      simp only [decide_eq_true_eq] at hb ⊢
      have := eventLt_start_le hab
      omega
    rcases List.eq_nil_or_concat
        (l.takeWhile (fun y => eventLt y (⟨0, "", ws, ws⟩ : Event))) with
        hB | ⟨b, pp, hB⟩
    · -- no event starts before the range
      simp only [getWeeklyEvents, hB, List.getLast?_nil, List.nil_append]
      conv_rhs => rw [← hsplit]
      rw [hB, List.nil_append, hafter]
    · rw [List.concat_eq_append] at hB
      have hppmem : pp ∈ l.takeWhile
          (fun y => eventLt y (⟨0, "", ws, ws⟩ : Event)) := by
        rw [hB]
        exact List.mem_append_right _ (List.mem_cons_self _ _)
      have hppstart : pp.start_utc < ws := takeWhile_key_start_lt hpos pp hppmem
      have hbnil : b.filter (fun ev =>
          decide (ev.start_utc < we) && decide (ev.end_utc > ws)) = [] := by
        rw [List.filter_eq_nil_iff]
        intro x hx hpx
        simp only [gt_iff_lt, Bool.and_eq_true, decide_eq_true_eq] at hpx
        exact before_overlap_eq_last hinv hB hx hpx.2
      have hppfilter : [pp].filter (fun ev =>
          decide (ev.start_utc < we) && decide (ev.end_utc > ws)) =
          if pp.end_utc > ws then [pp] else [] := by
      -- pp starts before ws ≤ we, so the first conjunct holds
        by_cases hpe : pp.end_utc > ws
        · have : (decide (pp.start_utc < we) && decide (pp.end_utc > ws)) =
              true := by
            simp only [gt_iff_lt, Bool.and_eq_true, decide_eq_true_eq]
            omega
          rw [if_pos hpe]
          simp [List.filter_cons, this]
        · have : (decide (pp.start_utc < we) && decide (pp.end_utc > ws)) =
              false := by
            simp only [gt_iff_lt, Bool.and_eq_false_iff, decide_eq_false_iff_not]
            omega
          rw [if_neg hpe]
          simp [List.filter_cons, this]
      simp only [getWeeklyEvents, hB, List.getLast?_concat]
      conv_rhs => rw [← hsplit]
      rw [hB, List.append_assoc, List.filter_append, List.filter_append,
        hbnil, List.nil_append, hafter, hppfilter]
  exact ⟨hmain, hmain ▸ List.Pairwise.filter _ hsort⟩

/-- Witness for C4's amended theorem: store `{[0,2), [5,6)}` queried over
`[1, 6)` returns both events (the first via the predecessor check). -/
theorem C4_getWeeklyEvents_correct_witness :
    getWeeklyEvents [⟨1, "a", 0, 2⟩, ⟨2, "b", 5, 6⟩] 1 6 =
      ([⟨1, "a", 0, 2⟩, ⟨2, "b", 5, 6⟩] : List Event).filter (fun ev =>
        decide (ev.start_utc < 6) && decide (ev.end_utc > 1)) ∧
    (getWeeklyEvents [⟨1, "a", 0, 2⟩, ⟨2, "b", 5, 6⟩] 1 6).Pairwise
      (fun a b => eventLt a b = true) :=
  C4_getWeeklyEvents_correct (by decide) (by decide)

/-! ### Identifier allocation -/

theorem consecFrom_mem {c x : Int} : ∀ {n : Nat}, x ∈ consecFrom c n → c ≤ x := by
  intro n
  induction n generalizing c with
  | zero => intro h; cases h
  | succ n ih =>
    intro h
    rcases List.mem_cons.mp h with rfl | h2
    · omega
    · have := ih h2
      omega

theorem consecFrom_pairwise (c : Int) (n : Nat) :
    (consecFrom c n).Pairwise (· < ·) := by
  induction n generalizing c with
  | zero => exact List.Pairwise.nil
  | succ n ih =>
    refine List.pairwise_cons.mpr ⟨?_, ih (c + 1)⟩
    intro x hx
    have := consecFrom_mem hx
    omega

theorem consecFrom_length (c : Int) (n : Nat) : (consecFrom c n).length = n := by
  induction n generalizing c with
  | zero => rfl
  | succ n ih =>
    simp [consecFrom, ih]

/-- Exhaustive description of `createEvent`'s two outcomes. -/
theorem createEvent_cases (svc : CalendarService) (t : String) (s e : Int) :
    (createEvent svc t s e = (svc, -1) ∧
      (s ≥ e ∨ hasConflict svc.events_ s e = true)) ∨
    (¬ s ≥ e ∧ hasConflict svc.events_ s e = false ∧
      createEvent svc t s e =
        (⟨insertEvent svc.events_ ⟨svc.next_event_id_, t, s, e⟩,
          svc.next_event_id_ + 1⟩, svc.next_event_id_)) := by
  by_cases h1 : s ≥ e
  · exact Or.inl ⟨by simp [createEvent, h1], Or.inl h1⟩
  by_cases h2 : hasConflict svc.events_ s e = true
  · exact Or.inl ⟨by simp [createEvent, h1, h2], Or.inr h2⟩
  · exact Or.inr ⟨h1, by simpa using h2,
      by simp [createEvent, h1, h2, getNextEventId]⟩

/-- From any invariant-satisfying state, the successful creates of a run
hand out exactly the consecutive integers starting at the current
counter. -/
theorem createdIds_consec (ops : List Op) :
    ∀ svc : CalendarService, ServiceInv svc →
    ∃ n : Nat, createdIds svc ops = consecFrom svc.next_event_id_ n := by
  induction ops with
  | nil => exact fun svc _ => ⟨0, rfl⟩
  | cons op rest ih =>
    intro svc hinv
    cases op with
    | create t s e =>
      rcases createEvent_cases svc t s e with ⟨heq, _⟩ | ⟨h1, h2, heq⟩
      · obtain ⟨n, hn⟩ := ih svc hinv
        refine ⟨n, ?_⟩
        simp only [createdIds, heq]
        exact hn
      · have hval : (createEvent svc t s e).2 = svc.next_event_id_ := by
          rw [heq]
        have hne : ¬ (createEvent svc t s e).2 = -1 := by
          rw [hval]
          have := hinv.2.1
          omega
        obtain ⟨n, hn⟩ := ih (createEvent svc t s e).1
          (createEvent_preserves hinv t s e)
        have hcount : (createEvent svc t s e).1.next_event_id_ =
            svc.next_event_id_ + 1 := by
          rw [heq]
        refine ⟨n + 1, ?_⟩
        simp only [createdIds, if_neg hne]
        rw [hval, hn, hcount]
        rfl
    | delete i =>
      obtain ⟨n, hn⟩ := ih (deleteEvent svc i).1 (deleteEvent_preserves hinv i)
      exact ⟨n, hn⟩

/-- C7: across any operation sequence from the fresh service, the ids
returned by successful creates are strictly increasing (hence never
reused) and start no lower than 1. -/
theorem C7_id_monotonic (ops : List Op) :
    (createdIds initService ops).Pairwise (· < ·) ∧
    ∀ i ∈ createdIds initService ops, 1 ≤ i := by
  obtain ⟨n, h⟩ := createdIds_consec ops initService (by decide)
  rw [h]
  exact ⟨consecFrom_pairwise 1 n, fun i hi => consecFrom_mem hi⟩

/-- Witness for C7: a two-create run hands out 1 then 2, strictly
increasing, both at least 1. -/
theorem C7_id_monotonic_witness :
    (createdIds initService
      [Op.create "a" 0 1, Op.create "b" 2 3]).Pairwise (· < ·) ∧
    (1:Int) ∈ createdIds initService [Op.create "a" 0 1, Op.create "b" 2 3] ∧
    (1:Int) ≤ 1 :=
  ⟨(C7_id_monotonic [Op.create "a" 0 1, Op.create "b" 2 3]).1, by decide,
    (C7_id_monotonic [Op.create "a" 0 1, Op.create "b" 2 3]).2 1 (by decide)⟩

/-- C10: a failed create (on an invariant-satisfying state) leaves the
whole service — counter included — unchanged, and consequently the ids of
the successful creates of any run are exactly 1, 2, 3, ... with no gaps. -/
theorem C10_failed_create_no_gap (ops : List Op) :
    (∀ (svc : CalendarService) (t : String) (s e : Int), ServiceInv svc →
      (createEvent svc t s e).2 = -1 → (createEvent svc t s e).1 = svc) ∧
    createdIds initService ops =
      consecFrom 1 (createdIds initService ops).length := by
  constructor
  · intro svc t s e hinv hfail
    rcases createEvent_cases svc t s e with ⟨heq, _⟩ | ⟨_, _, heq⟩
    · rw [heq]
    · rw [heq] at hfail
      have := hinv.2.1
      simp only at hfail
      omega
  · obtain ⟨n, h⟩ := createdIds_consec ops initService (by decide)
    rw [h, consecFrom_length]
    rfl

/-- Witness for C10: a create with an empty interval fails and leaves the
fresh service unchanged; a run with a conflicting middle create still
hands out consecutive ids 1, 2. -/
theorem C10_failed_create_no_gap_witness :
    ((createEvent initService "a" 5 5).2 = -1 →
      (createEvent initService "a" 5 5).1 = initService) ∧
    createdIds initService
        [Op.create "a" 0 1, Op.create "b" 0 1, Op.create "c" 5 9] =
      consecFrom 1 (createdIds initService
        [Op.create "a" 0 1, Op.create "b" 0 1, Op.create "c" 5 9]).length :=
  ⟨fun hfail => (C10_failed_create_no_gap []).1 initService "a" 5 5
      (by decide) hfail,
   (C10_failed_create_no_gap
      [Op.create "a" 0 1, Op.create "b" 0 1, Op.create "c" 5 9]).2⟩

/-- C8: `getAllEvents` on any reachable state lists every stored event
exactly once, sorted ascending by (start, id), mutates nothing, and two
consecutive calls with no intervening mutation agree. -/
theorem C8_getAllEvents (ops : List Op) :
    (getAllEvents (runOps ops)).Pairwise (fun a b => eventLt a b = true) ∧
    (getAllEvents (runOps ops)).Nodup ∧
    (∀ ev, ev ∈ getAllEvents (runOps ops) ↔ ev ∈ (runOps ops).events_) ∧
    getAllEvents (runOps ops) = getAllEvents (runOps ops) := by
  obtain ⟨⟨hsort, _, _, _, _⟩, _, _⟩ := runOps_inv ops
  refine ⟨hsort, ?_, fun ev => Iff.rfl, rfl⟩
  refine List.Pairwise.imp ?_ hsort
  intro a b hab heq
  subst heq
  rw [eventLt_irrefl] at hab
  exact Bool.false_ne_true hab

/-! ### Titles never influence behaviour -/

theorem eventLt_strip (a b : Event) :
    eventLt (eraseTitle a) (eraseTitle b) = eventLt a b := rfl

theorem insertEvent_strip (l : List Event) (ev : Event) :
    insertEvent (l.map eraseTitle) (eraseTitle ev) =
      (insertEvent l ev).map eraseTitle := by
  induction l with
  | nil => rfl
  | cons x rest ih =>
    simp only [List.map_cons, insertEvent, eventLt_strip]
    by_cases h1 : eventLt ev x = true
    · simp [h1]
    · by_cases h2 : eventLt x ev = true
      · simp [h1, h2, ih]
      · simp [h1, h2]

theorem eraseById_strip (l : List Event) (i : Int) :
    eraseById (l.map eraseTitle) i =
      ((eraseById l i).1.map eraseTitle, (eraseById l i).2) := by
  induction l with
  | nil => rfl
  | cons x rest ih =>
    simp only [List.map_cons, eraseById]
    by_cases h : x.id = i
    · have : (eraseTitle x).id = i := h
      simp [h, this]
    · have : ¬ (eraseTitle x).id = i := h
      simp [h, this, ih]

theorem hasConflict_strip (l : List Event) (s e : Int) :
    hasConflict (l.map eraseTitle) s e = hasConflict l s e := by
  have hq : ((fun ev => eventLt ev (⟨0, "", s, e⟩ : Event)) ∘ eraseTitle) =
      (fun ev => eventLt ev (⟨0, "", s, e⟩ : Event)) := rfl
  simp only [hasConflict, List.dropWhile_map, List.takeWhile_map, hq,
    List.head?_map, List.getLast?_map]
  rcases (l.dropWhile (fun ev => eventLt ev (⟨0, "", s, e⟩ : Event))).head? with
    _ | hd
  · rcases (l.takeWhile
        (fun ev => eventLt ev (⟨0, "", s, e⟩ : Event))).getLast? with _ | p
    · rfl
    · rfl
  · rcases (l.takeWhile
        (fun ev => eventLt ev (⟨0, "", s, e⟩ : Event))).getLast? with _ | p
    · rfl
    · rfl

theorem createEvent_strip (svc : CalendarService) (t : String) (s e : Int) :
    createEvent (stripSvc svc) "" s e =
      (stripSvc (createEvent svc t s e).1, (createEvent svc t s e).2) := by
  have hconf : hasConflict (stripSvc svc).events_ s e =
      hasConflict svc.events_ s e := hasConflict_strip svc.events_ s e
  by_cases h1 : s ≥ e
  · simp [createEvent, h1]
  by_cases h2 : hasConflict svc.events_ s e = true
  · simp [createEvent, h1, h2, hconf]
  · have hraw : createEvent svc t s e =
        (⟨insertEvent svc.events_ ⟨svc.next_event_id_, t, s, e⟩,
          svc.next_event_id_ + 1⟩, svc.next_event_id_) := by
      simp [createEvent, h1, h2, getNextEventId]
    have h2s : ¬ hasConflict (stripSvc svc).events_ s e = true := by
      rw [hconf]
      exact h2
    have hstripped : createEvent (stripSvc svc) "" s e =
        (⟨insertEvent (stripSvc svc).events_
            ⟨(stripSvc svc).next_event_id_, "", s, e⟩,
          (stripSvc svc).next_event_id_ + 1⟩,
         (stripSvc svc).next_event_id_) := by
      simp [createEvent, h1, h2s, getNextEventId]
    rw [hraw, hstripped]
    refine Prod.ext ?_ rfl
    show (⟨insertEvent (svc.events_.map eraseTitle)
        ⟨svc.next_event_id_, "", s, e⟩, svc.next_event_id_ + 1⟩ :
        CalendarService) = _
    have hev : (⟨svc.next_event_id_, "", s, e⟩ : Event) =
        eraseTitle ⟨svc.next_event_id_, t, s, e⟩ := rfl
    rw [hev, insertEvent_strip]
    rfl

theorem deleteEvent_strip (svc : CalendarService) (i : Int) :
    deleteEvent (stripSvc svc) i =
      (stripSvc (deleteEvent svc i).1, (deleteEvent svc i).2) := by
  simp only [deleteEvent, stripSvc]
  rw [eraseById_strip]

/-- A run only ever reads the title-erased part of the state: its results
and its title-erased final state coincide with those of the title-erased
run. -/
theorem run_strip (ops : List Op) :
    ∀ svc : CalendarService,
    runResults svc ops = runResults (stripSvc svc) (ops.map opShape) ∧
    stripSvc (ops.foldl applyOp svc) =
      (ops.map opShape).foldl applyOp (stripSvc svc) := by
  induction ops with
  | nil => exact fun svc => ⟨rfl, rfl⟩
  | cons op rest ih =>
    intro svc
    cases op with
    | create t s e =>
      have hc := createEvent_strip svc t s e
      constructor
      · simp only [runResults, List.map_cons, opShape, hc]
        exact congrArg _ (ih (createEvent svc t s e).1).1
      · simp only [List.foldl_cons, List.map_cons, opShape, applyOp, hc]
        exact (ih (createEvent svc t s e).1).2
    | delete i =>
      have hd := deleteEvent_strip svc i
      constructor
      · simp only [runResults, List.map_cons, opShape, hd]
        exact congrArg _ (ih (deleteEvent svc i).1).1
      · simp only [List.foldl_cons, List.map_cons, opShape, applyOp, hd]
        exact (ih (deleteEvent svc i).1).2

/-- C9: two operation sequences that differ only in the titles passed to
`createEvent` produce identical per-operation results (same
success/failure, same returned ids, same delete outcomes) and stores
agreeing on every (id, start, end) triple. -/
theorem C9_title_noninterference {ops1 ops2 : List Op}
    (h : ops1.map opShape = ops2.map opShape) :
    runResults initService ops1 = runResults initService ops2 ∧
    (runOps ops1).events_.map eraseTitle =
      (runOps ops2).events_.map eraseTitle := by
  have h1 := run_strip ops1 initService
  have h2 := run_strip ops2 initService
  have hinit : stripSvc initService = initService := rfl
  constructor
  · rw [h1.1, h2.1, hinit, h]
  · have e1 := h1.2
    have e2 := h2.2
    rw [hinit, h] at e1
    rw [hinit] at e2
    have hstrip : stripSvc (runOps ops1) = stripSvc (runOps ops2) := by
      show stripSvc (ops1.foldl applyOp initService) =
        stripSvc (ops2.foldl applyOp initService)
      rw [e1, e2]
    exact congrArg CalendarService.events_ hstrip

/-- Witness for C9: the same run with titles "x" and "y". -/
theorem C9_title_noninterference_witness :
    runResults initService [Op.create "x" 0 1, Op.delete 1] =
      runResults initService [Op.create "y" 0 1, Op.delete 1] ∧
    (runOps [Op.create "x" 0 1, Op.delete 1]).events_.map eraseTitle =
      (runOps [Op.create "y" 0 1, Op.delete 1]).events_.map eraseTitle :=
  C9_title_noninterference (by decide)

end Calendar
